import Mathlib

/-!
# A verification of the bantam Pratt parser

This development shallowly embeds the bantam expression parser
(`src/core.rs`, `src/parselet.rs`, `src/expression.rs`) in Lean and proves
properties of the embedding: token model, lexer, precedence table, the
Pratt parsing loop with its prefix/infix parselet tables, the AST node set
and the pretty-printer.

Modelling conventions:
* Rust panics (`expect`, `unwrap`, explicit `panic!`) become `Except`
  errors; the parse functions return `Except ParseError (Expression × Parser)`.
* The unbounded mutual recursion of the Pratt loop is made structural by a
  fuel parameter; `ParseError.outOfFuel` is a modelling artifact that never
  occurs at the fuel bounds used by the top-level entry points.
* Rust's `char::is_alphabetic` (Unicode) is modelled by `Char.isAlpha`;
  every input considered here is ASCII, where the two agree.
* The `Lexer` keeps only the still-unscanned suffix of the input text; the
  Rust original keeps the whole text plus a cursor index, and its behavior
  depends only on the suffix from the cursor on.
-/

namespace Bantam

/-- Token kinds, from `enum TokenType` in `src/core.rs`. -/
inductive TokenType
  | LeftParen
  | RightParen
  | Comma
  | Assign
  | Plus
  | Minus
  | Asterisk
  | Slash
  | Caret
  | Tilde
  | Bang
  | Question
  | Colon
  | Name
  | EOF
deriving DecidableEq, Repr

/-- `TokenType::punctuator` from `src/core.rs`. -/
def TokenType.punctuator : TokenType → Option Char
  | .LeftParen => some '('
  | .RightParen => some ')'
  | .Comma => some ','
  | .Assign => some '='
  | .Plus => some '+'
  | .Minus => some '-'
  | .Asterisk => some '*'
  | .Slash => some '/'
  | .Caret => some '^'
  | .Tilde => some '~'
  | .Bang => some '!'
  | .Question => some '?'
  | .Colon => some ':'
  | .Name => none
  | .EOF => none

/-- `TokenType::values` from `src/core.rs`. -/
def TokenType.values : List TokenType :=
  [.LeftParen, .RightParen, .Comma, .Assign, .Plus, .Minus, .Asterisk,
   .Slash, .Caret, .Tilde, .Bang, .Question, .Colon, .Name, .EOF]

/-- `struct Token` from `src/core.rs`: a token kind plus its lexeme. -/
structure Token where
  tokenType : TokenType
  text : String
deriving DecidableEq, Repr

/-- The EOF token produced once the lexer runs out of characters. -/
def eofToken : Token := ⟨.EOF, ""⟩

/-- `enum Precedence` from `src/core.rs`: nine levels, bigger binds tighter.
`PrefixOp`/`PostfixOp` are the Rust `Prefix`/`Postfix` discriminants. -/
inductive Precedence
  | Everything
  | Assignment
  | Conditional
  | Sum
  | Product
  | Exponent
  | PrefixOp
  | PostfixOp
  | Call
deriving DecidableEq, Repr

/-- The discriminant of each `Precedence` level (`Everything = 0` … `Call = 8`);
the derived `PartialOrd` in Rust compares these numbers. -/
def Precedence.toNat : Precedence → Nat
  | .Everything => 0
  | .Assignment => 1
  | .Conditional => 2
  | .Sum => 3
  | .Product => 4
  | .Exponent => 5
  | .PrefixOp => 6
  | .PostfixOp => 7
  | .Call => 8

/-- `impl From<usize> for Precedence` from `src/core.rs`; the Rust version
panics on a value above 8, modelled by `none`. -/
def Precedence.fromNat : Nat → Option Precedence
  | 0 => some .Everything
  | 1 => some .Assignment
  | 2 => some .Conditional
  | 3 => some .Sum
  | 4 => some .Product
  | 5 => some .Exponent
  | 6 => some .PrefixOp
  | 7 => some .PostfixOp
  | 8 => some .Call
  | _ => none

/-- The `punctuators` table built in `Lexer::new`: the kind registered for a
punctuation character, if any. -/
def punctuatorFor (c : Char) : Option TokenType :=
  TokenType.values.find? fun tt => decide (tt.punctuator = some c)

/-- `struct Lexer` from `src/core.rs`, represented by the unscanned suffix of
the input text. -/
structure Lexer where
  text : List Char
deriving DecidableEq, Repr

/-- One step of `impl Iterator for Lexer`: punctuation characters become
one-character tokens, a maximal alphabetic run becomes a `Name` token, every
other character is skipped, and an exhausted scan yields `eofToken`. -/
def lexNext : List Char → Token × List Char
  | [] => (eofToken, [])
  | c :: rest =>
    match punctuatorFor c with
    | some tt => (⟨tt, String.mk [c]⟩, rest)
    | none =>
      if c.isAlpha then
        (⟨.Name, String.mk (c :: rest.takeWhile Char.isAlpha)⟩,
         rest.dropWhile Char.isAlpha)
      else
        lexNext rest

/-- `Lexer::next` (the `Iterator` impl): always returns a token. -/
def Lexer.next (l : Lexer) : Token × Lexer :=
  ((lexNext l.text).fst, ⟨(lexNext l.text).snd⟩)

/-- The length of `dropWhile` never exceeds the original length. -/
theorem dropWhile_length_le {α : Type} (p : α → Bool) (l : List α) :
    (l.dropWhile p).length ≤ l.length := by
  induction l with
  | nil => simp [List.dropWhile]
  | cons a t ih =>
    rw [List.dropWhile_cons]
    split
    · simp only [List.length_cons]; omega
    · simp

/-- The full (finite) token sequence the lexer produces for a text before it
starts padding with EOF. -/
def lexAll : List Char → List Token
  | [] => []
  | c :: rest =>
    match punctuatorFor c with
    | some tt => ⟨tt, String.mk [c]⟩ :: lexAll rest
    | none =>
      if c.isAlpha then
        ⟨.Name, String.mk (c :: rest.takeWhile Char.isAlpha)⟩ ::
          lexAll (rest.dropWhile Char.isAlpha)
      else
        lexAll rest
termination_by cs => cs.length
decreasing_by
  all_goals simp only [List.length_cons]
  all_goals try omega
  all_goals exact Nat.lt_succ_of_le (dropWhile_length_le Char.isAlpha rest)

/-- `n` successive pulls on a lexer. -/
def pullN (l : Lexer) : Nat → List Token
  | 0 => []
  | n + 1 => (l.next).fst :: pullN (l.next).snd n

/-- AST nodes, from `src/expression.rs` (`NameExpression`, `PrefixExpression`,
`OperatorExpression`, `PostfixExpression`, `ConditionalExpression`,
`AssignExpression`, `CallExpression`). -/
inductive Expression
  | nameExpr (name : String)
  | prefixExpr (operator : TokenType) (right : Expression)
  | operatorExpr (left : Expression) (operator : TokenType) (right : Expression)
  | postfixExpr (left : Expression) (operator : TokenType)
  | conditionalExpr (condition thenArm elseArm : Expression)
  | assignExpr (name : String) (right : Expression)
  | callExpr (function : Expression) (args : List Expression)
deriving Repr

/-- The `.punctuator().unwrap()` used by the printers; operator nodes built by
the grammar always carry punctuation kinds, so the default is never used. -/
def punctChar (tt : TokenType) : Char := (tt.punctuator).getD ' '

mutual
/-- The `print` methods of `src/expression.rs`, as a pure string builder. -/
def Expression.print : Expression → String
  | .nameExpr n => n
  | .prefixExpr op r => "(" ++ String.mk [punctChar op] ++ r.print ++ ")"
  | .operatorExpr l op r =>
      "(" ++ l.print ++ " " ++ String.mk [punctChar op] ++ " " ++ r.print ++ ")"
  | .postfixExpr l op => "(" ++ l.print ++ String.mk [punctChar op] ++ ")"
  | .conditionalExpr c t e =>
      "(" ++ c.print ++ " ? " ++ t.print ++ " : " ++ e.print ++ ")"
  | .assignExpr n r => "(" ++ n ++ " = " ++ r.print ++ ")"
  | .callExpr f args => f.print ++ "(" ++ printArgs args ++ ")"

/-- Comma-joined argument printing inside `CallExpression::print`. -/
def printArgs : List Expression → String
  | [] => ""
  | [a] => a.print
  | a :: rest => a.print ++ ", " ++ printArgs rest
end

/-- `trait PrefixParselet` implementors from `src/parselet.rs`, as a closed
union: `NameParselet`, `GroupParselet`, `PrefixOperatorParselet`. -/
inductive PrefixParselet
  | nameParselet
  | groupParselet
  | prefixOpParselet (precedence : Precedence)
deriving DecidableEq, Repr

/-- `trait InfixParselet` implementors from `src/parselet.rs`, as a closed
union: `BinaryOperatorParselet`, `PostfixOperatorParselet`,
`ConditionalParselet`, `AssignParselet`, `CallParselet`. -/
inductive InfixParselet
  | binaryOpParselet (precedence : Precedence) (isRight : Bool)
  | postfixOpParselet (precedence : Precedence)
  | conditionalParselet
  | assignParselet
  | callParselet
deriving DecidableEq, Repr

/-- The `get_precedence` method of each `InfixParselet` implementor. -/
def InfixParselet.getPrecedence : InfixParselet → Precedence
  | .binaryOpParselet p _ => p
  | .postfixOpParselet p => p
  | .conditionalParselet => .Conditional
  | .assignParselet => .Assignment
  | .callParselet => .Call

/-- The two parselet tables of `struct Parser`, read-only during a parse. -/
structure Grammar where
  prefixParselets : TokenType → Option PrefixParselet
  infixParselets : TokenType → Option InfixParselet

/-- `struct Parser` state: the token source and the lookahead buffer `read`.
The parselet tables are passed separately as a `Grammar` since they never
change during a parse. -/
structure Parser where
  tokens : Lexer
  read : List Token
deriving DecidableEq, Repr

/-- `n` iterations of the `while` body of `Parser::look_ahead`: pull a token
from the lexer and push it onto the back of `read`. -/
def fillN : Nat → Parser → Parser
  | 0, p => p
  | n + 1, p => fillN n ⟨(p.tokens.next).snd, p.read ++ [(p.tokens.next).fst]⟩

/-- `Parser::look_ahead`: buffer tokens until `read` holds more than
`distance` of them, then return the one at offset `distance`. -/
def Parser.lookAhead (p : Parser) (distance : Nat) : Token × Parser :=
  let p₁ := fillN (distance + 1 - p.read.length) p
  (p₁.read.getD distance eofToken, p₁)

/-- `Parser::consume`: `look_ahead(0)` then remove and return the front of
`read`. -/
def Parser.consume (p : Parser) : Token × Parser :=
  let p₁ := fillN (1 - p.read.length) p
  (p₁.read.headD eofToken, ⟨p₁.tokens, p₁.read.tail⟩)

/-- Parse failures; each constructor models one Rust panic site (plus the
fuel artifact `outOfFuel` and the `unwrap` in the climbing loop). -/
inductive ParseError
  | couldNotParse (text : String)
  | expectedTok (expected found : TokenType)
  | invalidAssignmentTarget
  | invalidPrecedence (value : Nat)
  | internalUnwrap
  | outOfFuel
deriving DecidableEq, Repr

/-- `Parser::consume_expected`: `look_ahead(0)`, fail fatally if the kind
differs from `expected`, otherwise consume. -/
def Parser.consumeExpected (p : Parser) (expected : TokenType) :
    Except ParseError (Token × Parser) :=
  let tp := p.lookAhead 0
  if tp.fst.tokenType = expected then
    .ok tp.snd.consume
  else
    .error (.expectedTok expected tp.fst.tokenType)

/-- `Parser::match_tok`: consume the next token and report true when its
kind equals `expected`, otherwise report false. -/
def Parser.matchTok (p : Parser) (expected : TokenType) : Bool × Parser :=
  let tp := p.lookAhead 0
  if tp.fst.tokenType = expected then
    (true, (tp.snd.consume).snd)
  else
    (false, tp.snd)

/-- `Parser::get_precedence`: the declared precedence of the next token's
infix parselet, or the catch-all `Everything` when it has none. -/
def Parser.getPrecedence (g : Grammar) (p : Parser) : Precedence × Parser :=
  let tp := p.lookAhead 0
  match g.infixParselets tp.fst.tokenType with
  | some ip => (ip.getPrecedence, tp.snd)
  | none => (.Everything, tp.snd)

mutual
/-- `Parser::parse_expression_precedence` from `src/core.rs`: consume one
token, run its prefix parselet (fatal if none), then the climbing loop. -/
def parseExpressionPrecedence (g : Grammar) :
    Nat → Precedence → Parser → Except ParseError (Expression × Parser)
  | 0, _, _ => .error .outOfFuel
  | fuel + 1, minPrec, p =>
    let tp := p.consume
    match g.prefixParselets tp.fst.tokenType with
    | none => .error (.couldNotParse tp.fst.text)
    | some pl =>
      match runPrefixParselet g fuel pl tp.fst tp.snd with
      | .error e => .error e
      | .ok lp => infixLoop g fuel minPrec lp.fst lp.snd

/-- The `while precedence < self.get_precedence()` loop inside
`parse_expression_precedence`: as long as the minimum precedence is strictly
below the next token's declared infix precedence, consume the token and fold
its infix parselet's result into the left-hand side. -/
def infixLoop (g : Grammar) :
    Nat → Precedence → Expression → Parser → Except ParseError (Expression × Parser)
  | 0, _, _, _ => .error .outOfFuel
  | fuel + 1, minPrec, left, p =>
    let pr := p.getPrecedence g
    if minPrec.toNat < pr.fst.toNat then
      let tp := pr.snd.consume
      match g.infixParselets tp.fst.tokenType with
      | none => .error .internalUnwrap
      | some ip =>
        match runInfixParselet g fuel ip left tp.fst tp.snd with
        | .error e => .error e
        | .ok lp => infixLoop g fuel minPrec lp.fst lp.snd
    else
      .ok (left, pr.snd)

/-- The `parse` methods of the `PrefixParselet` implementors in
`src/parselet.rs`. -/
def runPrefixParselet (g : Grammar) :
    Nat → PrefixParselet → Token → Parser → Except ParseError (Expression × Parser)
  | 0, _, _, _ => .error .outOfFuel
  | _fuel + 1, .nameParselet, token, p => .ok (.nameExpr token.text, p)
  | fuel + 1, .prefixOpParselet prec, token, p =>
    match parseExpressionPrecedence g fuel prec p with
    | .error e => .error e
    | .ok op => .ok (.prefixExpr token.tokenType op.fst, op.snd)
  | fuel + 1, .groupParselet, _token, p =>
    match parseExpressionPrecedence g fuel .Everything p with
    | .error e => .error e
    | .ok ep =>
      match ep.snd.consumeExpected .RightParen with
      | .error e => .error e
      | .ok tp => .ok (ep.fst, tp.snd)

/-- The `parse` methods of the `InfixParselet` implementors in
`src/parselet.rs`. -/
def runInfixParselet (g : Grammar) :
    Nat → InfixParselet → Expression → Token → Parser →
      Except ParseError (Expression × Parser)
  | 0, _, _, _, _ => .error .outOfFuel
  | fuel + 1, .binaryOpParselet prec isRight, left, token, p =>
    let opPrec := prec.toNat - (if isRight then 1 else 0)
    match Precedence.fromNat opPrec with
    | none => .error (.invalidPrecedence opPrec)
    | some q =>
      match parseExpressionPrecedence g fuel q p with
      | .error e => .error e
      | .ok rp => .ok (.operatorExpr left token.tokenType rp.fst, rp.snd)
  | _fuel + 1, .postfixOpParselet _prec, left, token, p =>
    .ok (.postfixExpr left token.tokenType, p)
  | fuel + 1, .conditionalParselet, left, _token, p =>
    match parseExpressionPrecedence g fuel .Everything p with
    | .error e => .error e
    | .ok tp =>
      match tp.snd.consumeExpected .Colon with
      | .error e => .error e
      | .ok cp =>
        let elsePrec := Precedence.Conditional.toNat - 1
        match Precedence.fromNat elsePrec with
        | none => .error (.invalidPrecedence elsePrec)
        | some q =>
          match parseExpressionPrecedence g fuel q cp.snd with
          | .error e => .error e
          | .ok ep => .ok (.conditionalExpr left tp.fst ep.fst, ep.snd)
  | fuel + 1, .assignParselet, left, _token, p =>
    let rightPrec := Precedence.Assignment.toNat - 1
    match Precedence.fromNat rightPrec with
    | none => .error (.invalidPrecedence rightPrec)
    | some q =>
      match parseExpressionPrecedence g fuel q p with
      | .error e => .error e
      | .ok rp =>
        match left with
        | .nameExpr n => .ok (.assignExpr n rp.fst, rp.snd)
        | _ => .error .invalidAssignmentTarget
  | fuel + 1, .callParselet, left, _token, p =>
    let mp := p.matchTok .RightParen
    if mp.fst then
      .ok (.callExpr left [], mp.snd)
    else
      match callArgsLoop g fuel mp.snd with
      | .error e => .error e
      | .ok ap =>
        match ap.snd.consumeExpected .RightParen with
        | .error e => .error e
        | .ok tp => .ok (.callExpr left ap.fst, tp.snd)

/-- The argument loop of `CallParselet::parse`: parse one expression, then
continue exactly when a comma follows. -/
def callArgsLoop (g : Grammar) :
    Nat → Parser → Except ParseError (List Expression × Parser)
  | 0, _ => .error .outOfFuel
  | fuel + 1, p =>
    match parseExpressionPrecedence g fuel .Everything p with
    | .error e => .error e
    | .ok ap =>
      let mp := ap.snd.matchTok .Comma
      if mp.fst then
        match callArgsLoop g fuel mp.snd with
        | .error e => .error e
        | .ok rest => .ok (ap.fst :: rest.fst, rest.snd)
      else
        .ok ([ap.fst], mp.snd)
end

/-- The registrations performed by `BantamParser::new` in `src/core.rs`. -/
def bantamGrammar : Grammar where
  prefixParselets := fun tt =>
    match tt with
    | .Name => some .nameParselet
    | .LeftParen => some .groupParselet
    | .Plus => some (.prefixOpParselet .PrefixOp)
    | .Minus => some (.prefixOpParselet .PrefixOp)
    | .Tilde => some (.prefixOpParselet .PrefixOp)
    | .Bang => some (.prefixOpParselet .PrefixOp)
    | _ => none
  infixParselets := fun tt =>
    match tt with
    | .Assign => some .assignParselet
    | .Question => some .conditionalParselet
    | .LeftParen => some .callParselet
    | .Bang => some (.postfixOpParselet .PostfixOp)
    | .Plus => some (.binaryOpParselet .Sum false)
    | .Minus => some (.binaryOpParselet .Sum false)
    | .Asterisk => some (.binaryOpParselet .Product false)
    | .Slash => some (.binaryOpParselet .Product false)
    | .Caret => some (.binaryOpParselet .Exponent true)
    | _ => none

/-- A fresh parser over the given source text, as built by the test harness:
`BantamParser::new(Box::new(Lexer::new(input)))`. -/
def mkParser (input : String) : Parser := ⟨⟨input.data⟩, []⟩

/-- Fuel that amply covers a top-level parse of `input`: every mutual call
consumes at least one input token per eight fuel units. -/
def parseFuel (input : String) : Nat := 8 * input.length + 16

/-- The top-level `parse_expression()` on a fresh parser over `input`. -/
def parseStringE (input : String) : Except ParseError (Expression × Parser) :=
  parseExpressionPrecedence bantamGrammar (parseFuel input) .Everything (mkParser input)

/-- Parse `input` and pretty-print the resulting tree. -/
def parseAndPrint (input : String) : Except ParseError String :=
  match parseStringE input with
  | .error e => .error e
  | .ok ep => .ok ep.fst.print

/-! ## Lexer lemmas -/

/-- `lexAll` on an empty text is empty. -/
theorem lexAll_nil : lexAll [] = [] := by simp [lexAll]

/-- A punctuation lookup never returns a kind without a punctuator. -/
theorem punctuatorFor_punctuator {c : Char} {tt : TokenType}
    (h : punctuatorFor c = some tt) : tt.punctuator = some c := by
  have := List.find?_some h
  simpa using this

/-- When the token list is exhausted, one more lexer step yields the EOF
token and an empty remainder. -/
theorem lexNext_of_lexAll_nil {cs : List Char} (h : lexAll cs = []) :
    lexNext cs = (eofToken, []) := by
  induction cs using lexAll.induct with
  | case1 => rfl
  | case2 c rest tt hp =>
    rw [lexAll, hp] at h
    exact absurd h (by simp)
  | case3 c rest hp ha ih =>
    rw [lexAll, hp, if_pos ha] at h
    exact absurd h (by simp)
  | case4 c rest hp ha ih =>
    rw [lexAll, hp, if_neg ha] at h
    rw [lexNext, hp, if_neg ha]
    exact ih h

/-- When the token list is not exhausted, one lexer step yields its head and
a remainder whose token list is its tail. -/
theorem lexNext_of_lexAll_cons {cs : List Char} {t : Token} {ts : List Token}
    (h : lexAll cs = t :: ts) :
    lexNext cs = (t, (lexNext cs).snd) ∧ lexAll (lexNext cs).snd = ts := by
  induction cs using lexAll.induct with
  | case1 => rw [lexAll_nil] at h; exact absurd h (by simp)
  | case2 c rest tt hp =>
    rw [lexAll, hp] at h
    rw [lexNext, hp]
    obtain ⟨h1, h2⟩ := List.cons.injEq .. ▸ h
    exact ⟨by simp [h1], by simp [h2.symm]⟩
  | case3 c rest hp ha ih =>
    rw [lexAll, hp, if_pos ha] at h
    rw [lexNext, hp, if_pos ha]
    obtain ⟨h1, h2⟩ := List.cons.injEq .. ▸ h
    exact ⟨by simp [h1], by simp [h2.symm]⟩
  | case4 c rest hp ha ih =>
    rw [lexAll, hp, if_neg ha] at h
    rw [lexNext, hp, if_neg ha]
    exact ih h

/-- Every token of `lexAll` is a real token, never EOF. -/
theorem lexAll_ne_eof {cs : List Char} {t : Token} (ht : t ∈ lexAll cs) :
    t.tokenType ≠ .EOF := by
  induction cs using lexAll.induct with
  | case1 => rw [lexAll_nil] at ht; exact absurd ht (by simp)
  | case2 c rest tt hp ih =>
    rw [lexAll, hp] at ht
    rcases List.mem_cons.mp ht with h | h
    · subst h
      intro he
      have := punctuatorFor_punctuator hp
      rw [show (⟨tt, String.mk [c]⟩ : Token).tokenType = tt from rfl] at he
      subst he
      simp [TokenType.punctuator] at this
    · exact ih h
  | case3 c rest hp ha ih =>
    rw [lexAll, hp, if_pos ha] at ht
    rcases List.mem_cons.mp ht with h | h
    · subst h; simp
    · exact ih h
  | case4 c rest hp ha ih =>
    rw [lexAll, hp, if_neg ha] at ht
    exact ih ht

/-! ## Parser operation lemmas -/

/-- `fillN` appends exactly `n` pulled tokens to the buffer. -/
theorem fillN_read_length (n : Nat) (p : Parser) :
    (fillN n p).read.length = p.read.length + n := by
  induction n generalizing p with
  | zero => rfl
  | succ m ih =>
    rw [fillN, ih]
    simp only [List.length_append, List.length_cons, List.length_nil]
    omega

/-- `look_ahead(0)` with a non-empty buffer returns its head, unchanged state. -/
theorem lookAhead_zero_cons {p : Parser} {t : Token} {r : List Token}
    (h : p.read = t :: r) : p.lookAhead 0 = (t, p) := by
  simp [Parser.lookAhead, h, fillN]

/-- `look_ahead(0)` with an empty buffer pulls one token from the lexer. -/
theorem lookAhead_zero_nil {p : Parser} (h : p.read = []) :
    p.lookAhead 0 =
      ((p.tokens.next).fst, ⟨(p.tokens.next).snd, [(p.tokens.next).fst]⟩) := by
  simp [Parser.lookAhead, h, fillN]

/-- `consume` with a non-empty buffer removes and returns its head. -/
theorem consume_cons {p : Parser} {t : Token} {r : List Token}
    (h : p.read = t :: r) : p.consume = (t, ⟨p.tokens, r⟩) := by
  simp [Parser.consume, h, fillN]

/-- `consume` with an empty buffer pulls one token and returns it. -/
theorem consume_nil {p : Parser} (h : p.read = []) :
    p.consume = ((p.tokens.next).fst, ⟨(p.tokens.next).snd, []⟩) := by
  simp [Parser.consume, h, fillN]

example : parseAndPrint "a + b - c" = .ok "((a + b) - c)" := by rfl
example : parseAndPrint "a * b / c" = .ok "((a * b) / c)" := by rfl
example : parseAndPrint "a ^ b ^ c" = .ok "(a ^ (b ^ c))" := by rfl
example : parseAndPrint "a = b = c" = .ok "(a = (b = c))" := by rfl
example : parseAndPrint "a = b + c * d ^ e - f / g" =
    .ok "(a = ((b + (c * (d ^ e))) - (f / g)))" := by rfl
example : parseAndPrint "a ? b : c ? d : e" = .ok "(a ? b : (c ? d : e))" := by rfl
example : parseAndPrint "a ? b ? c : d : e" = .ok "(a ? (b ? c : d) : e)" := by rfl
example : parseAndPrint "a + (b + c) + d" = .ok "((a + (b + c)) + d)" := by rfl
example : parseAndPrint "a(b ? c : d, e + f)" = .ok "a((b ? c : d), (e + f))" := by rfl
example : parseAndPrint "~!-+a" = .ok "(~(!(-(+a))))" := by rfl
example : parseAndPrint "a!!!" = .ok "(((a!)!)!)" := by rfl
example : parseStringE "a b" = .ok (.nameExpr "a", ⟨⟨[]⟩, [⟨.Name, "b"⟩]⟩) := by rfl
example : parseStringE "(a" = .error (.expectedTok .RightParen .EOF) := by rfl
example : parseStringE "a ? b" = .error (.expectedTok .Colon .EOF) := by rfl
example : parseStringE "a(b" = .error (.expectedTok .RightParen .EOF) := by rfl
example : parseStringE "a + b = c" = .error .invalidAssignmentTarget := by rfl
example : parseStringE "a + b = )" = .error (.couldNotParse ")") := by rfl
example : parseStringE "b + c" =
    .ok (.operatorExpr (.nameExpr "b") .Plus (.nameExpr "c"), ⟨⟨[]⟩, [eofToken]⟩) := by rfl

/-! ## The observable token stream of a parser state -/

/-- The `i`-th token a parser state will deliver: the buffered tokens, then
the lexer's remaining tokens, then EOF padding forever. -/
def streamAt (p : Parser) (i : Nat) : Token :=
  (p.read ++ lexAll p.tokens.text).getD i eofToken

/-- `look_ahead(0)` returns the head of the observable stream. -/
theorem lookAhead_zero_fst_stream (p : Parser) :
    (p.lookAhead 0).fst = streamAt p 0 := by
  cases hr : p.read with
  | cons t r => rw [lookAhead_zero_cons hr]; simp [streamAt, hr]
  | nil =>
    rw [lookAhead_zero_nil hr]
    cases hl : lexAll p.tokens.text with
    | nil =>
      have := lexNext_of_lexAll_nil hl
      simp [streamAt, hr, hl, Lexer.next, this]
    | cons t ts =>
      obtain ⟨h1, _⟩ := lexNext_of_lexAll_cons hl
      simp [streamAt, hr, hl, Lexer.next, congrArg Prod.fst h1]

/-- `look_ahead(0)` does not change the observable stream. -/
theorem lookAhead_zero_snd_stream (p : Parser) (i : Nat) :
    streamAt ((p.lookAhead 0).snd) i = streamAt p i := by
  cases hr : p.read with
  | cons t r => rw [lookAhead_zero_cons hr]
  | nil =>
    rw [lookAhead_zero_nil hr]
    cases hl : lexAll p.tokens.text with
    | nil =>
      have := lexNext_of_lexAll_nil hl
      have h2 : (p.tokens.next).snd = ⟨[]⟩ := by rw [Lexer.next, this]
      have h1 : (p.tokens.next).fst = eofToken := by rw [Lexer.next, this]
      simp only [streamAt, hr, h1, h2, lexAll_nil, hl]
      cases i <;> simp
    | cons t ts =>
      obtain ⟨h1, h2⟩ := lexNext_of_lexAll_cons hl
      have hf : (p.tokens.next).fst = t := by rw [Lexer.next]; exact congrArg Prod.fst h1
      have hs : lexAll ((p.tokens.next).snd).text = ts := by rw [Lexer.next]; exact h2
      simp [streamAt, hr, hl, hf, hs]

/-- `consume` returns the head of the observable stream. -/
theorem consume_fst_stream (p : Parser) : (p.consume).fst = streamAt p 0 := by
  cases hr : p.read with
  | cons t r => rw [consume_cons hr]; simp [streamAt, hr]
  | nil =>
    rw [consume_nil hr]
    cases hl : lexAll p.tokens.text with
    | nil =>
      have := lexNext_of_lexAll_nil hl
      simp [streamAt, hr, hl, Lexer.next, this]
    | cons t ts =>
      obtain ⟨h1, _⟩ := lexNext_of_lexAll_cons hl
      simp [streamAt, hr, hl, Lexer.next, congrArg Prod.fst h1]

/-- `consume` shifts the observable stream by one. -/
theorem consume_snd_stream (p : Parser) (i : Nat) :
    streamAt ((p.consume).snd) i = streamAt p (i + 1) := by
  cases hr : p.read with
  | cons t r => rw [consume_cons hr]; simp [streamAt, hr]
  | nil =>
    rw [consume_nil hr]
    cases hl : lexAll p.tokens.text with
    | nil =>
      have := lexNext_of_lexAll_nil hl
      have h2 : (p.tokens.next).snd = ⟨[]⟩ := by rw [Lexer.next, this]
      simp only [streamAt, hr, h2, lexAll_nil, hl]
      simp
    | cons t ts =>
      obtain ⟨h1, h2⟩ := lexNext_of_lexAll_cons hl
      have hs : lexAll ((p.tokens.next).snd).text = ts := by rw [Lexer.next]; exact h2
      simp [streamAt, hr, hl, hs]

/-! ## Auxiliary facts about the primitive operations -/

/-- Consuming right after `look_ahead(0)` returns the looked-at token. -/
theorem consume_after_lookAhead (p : Parser) :
    (((p.lookAhead 0).snd).consume).fst = (p.lookAhead 0).fst := by
  cases hr : p.read with
  | cons t r =>
    rw [lookAhead_zero_cons hr]
    rw [consume_cons hr]
  | nil =>
    rw [lookAhead_zero_nil hr]
    rw [consume_cons (show Parser.read ⟨(p.tokens.next).snd, [(p.tokens.next).fst]⟩
      = (p.tokens.next).fst :: [] from rfl)]

/-- `get_precedence` changes the state exactly as `look_ahead(0)` does. -/
theorem getPrecedence_snd (g : Grammar) (p : Parser) :
    (p.getPrecedence g).snd = (p.lookAhead 0).snd := by
  rw [Parser.getPrecedence]
  split <;> rfl

/-- `get_precedence` is determined by the looked-at token's kind. -/
theorem getPrecedence_fst (g : Grammar) (p : Parser) :
    (p.getPrecedence g).fst =
      (match g.infixParselets ((p.lookAhead 0).fst.tokenType) with
       | some ip => ip.getPrecedence
       | none => Precedence.Everything) := by
  rw [Parser.getPrecedence]
  split <;> rfl

/-! ## Lexing a text extended by a closing parenthesis -/

/-- `takeWhile` ignores an appended element that fails the predicate. -/
theorem takeWhile_append_no {p : Char → Bool} {d : Char} (hd : p d = false)
    (xs : List Char) : (xs ++ [d]).takeWhile p = xs.takeWhile p := by
  induction xs with
  | nil => simp [List.takeWhile, hd]
  | cons x t ih =>
    rw [List.cons_append, List.takeWhile_cons, List.takeWhile_cons]
    cases p x <;> simp [ih]

/-- `dropWhile` passes an appended element that fails the predicate through. -/
theorem dropWhile_append_no {p : Char → Bool} {d : Char} (hd : p d = false)
    (xs : List Char) : (xs ++ [d]).dropWhile p = xs.dropWhile p ++ [d] := by
  induction xs with
  | nil => simp [List.dropWhile, hd]
  | cons x t ih =>
    rw [List.cons_append, List.dropWhile_cons, List.dropWhile_cons]
    cases p x <;> simp [ih]

/-- The right-parenthesis token that closes a parenthesized input. -/
def rparenToken : Token := ⟨.RightParen, ")"⟩

/-- Appending `)` to a text appends exactly one `)` token to its lexing. -/
theorem lexAll_append_rparen (cs : List Char) :
    lexAll (cs ++ [')']) = lexAll cs ++ [rparenToken] := by
  induction cs using lexAll.induct with
  | case1 =>
    rw [List.nil_append, lexAll_nil, List.nil_append]
    rw [lexAll, show punctuatorFor ')' = some TokenType.RightParen from rfl,
      lexAll_nil]
    rfl
  | case2 c rest tt hp ih =>
    rw [List.cons_append, lexAll, hp, lexAll, hp]
    simp [ih]
  | case3 c rest hp ha ih =>
    rw [List.cons_append, lexAll, hp, if_pos ha, lexAll, hp, if_pos ha]
    rw [takeWhile_append_no (by decide) rest, dropWhile_append_no (by decide) rest]
    simp [ih]
  | case4 c rest hp ha ih =>
    rw [List.cons_append, lexAll, hp, if_neg ha, lexAll, hp, if_neg ha]
    exact ih

/-! ## Simulation between a bare parse and its parenthesized parse -/

/-- Relation between a state of the bare parse of `s` and the matching state
of the parse of `(s)` after its opening parenthesis: the wrapped state sees
the same tokens followed by one extra `)`. At the very end the bare state
has buffered the EOF pad where the wrapped one has buffered the `)`. -/
def ExtRel (p q : Parser) : Prop :=
  (q.read = p.read ∧ (∀ t ∈ p.read, t.tokenType ≠ .EOF) ∧
    lexAll q.tokens.text = lexAll p.tokens.text ++ [rparenToken]) ∨
  (p.read = [eofToken] ∧ q.read = [rparenToken] ∧
    lexAll p.tokens.text = [] ∧ lexAll q.tokens.text = [])

/-- `look_ahead(0)` preserves the simulation relation, and the two looked-at
tokens are either equal or the EOF pad against the closing parenthesis. -/
theorem extRel_lookAhead {p q : Parser} (h : ExtRel p q) :
    ExtRel ((p.lookAhead 0).snd) ((q.lookAhead 0).snd) ∧
    ((q.lookAhead 0).fst = (p.lookAhead 0).fst ∨
      ((p.lookAhead 0).fst = eofToken ∧ (q.lookAhead 0).fst = rparenToken ∧
        ((p.lookAhead 0).snd).read = [eofToken] ∧
        lexAll (((p.lookAhead 0).snd).tokens.text) = [])) := by
  rcases h with ⟨hr, hne, hlex⟩ | ⟨hpr, hqr, hpl, hql⟩
  · cases hpread : p.read with
    | cons t r =>
      have hqread : q.read = t :: r := hr.trans hpread
      rw [lookAhead_zero_cons hpread, lookAhead_zero_cons hqread]
      exact ⟨Or.inl ⟨hr, hne, hlex⟩, Or.inl rfl⟩
    | nil =>
      have hqread : q.read = [] := hr.trans hpread
      rw [lookAhead_zero_nil hpread, lookAhead_zero_nil hqread]
      cases hpl : lexAll p.tokens.text with
      | nil =>
        have hp := lexNext_of_lexAll_nil hpl
        have hql : lexAll q.tokens.text = [rparenToken] := by
          rw [hlex, hpl]; rfl
        obtain ⟨hq1, hq2⟩ := lexNext_of_lexAll_cons hql
        have hpf : (p.tokens.next).fst = eofToken := by rw [Lexer.next, hp]
        have hps : lexAll ((p.tokens.next).snd).text = [] := by
          rw [Lexer.next, hp]; exact lexAll_nil
        have hqf : (q.tokens.next).fst = rparenToken := by
          rw [Lexer.next]; exact congrArg Prod.fst hq1
        have hqs : lexAll ((q.tokens.next).snd).text = [] := by
          rw [Lexer.next]; exact hq2
        refine ⟨Or.inr ⟨?_, ?_, hps, hqs⟩, Or.inr ⟨hpf, hqf, by simp [hpf], hps⟩⟩
        · simp [hpf]
        · simp [hqf]
      | cons t ts =>
        obtain ⟨hp1, hp2⟩ := lexNext_of_lexAll_cons hpl
        have hql : lexAll q.tokens.text = t :: (ts ++ [rparenToken]) := by
          rw [hlex, hpl]; rfl
        obtain ⟨hq1, hq2⟩ := lexNext_of_lexAll_cons hql
        have hpf : (p.tokens.next).fst = t := by
          rw [Lexer.next]; exact congrArg Prod.fst hp1
        have hqf : (q.tokens.next).fst = t := by
          rw [Lexer.next]; exact congrArg Prod.fst hq1
        have hps : lexAll ((p.tokens.next).snd).text = ts := by
          rw [Lexer.next]; exact hp2
        have hqs : lexAll ((q.tokens.next).snd).text = ts ++ [rparenToken] := by
          rw [Lexer.next]; exact hq2
        refine ⟨Or.inl ⟨?_, ?_, ?_⟩, Or.inl (by rw [hpf, hqf])⟩
        · simp [hpf, hqf]
        · intro u hu
          simp only [hpf, List.mem_singleton] at hu
          rw [hu]
          exact lexAll_ne_eof (hpl ▸ List.mem_cons_self t ts)
        · simp [hps, hqs]
  · rw [lookAhead_zero_cons hpr, lookAhead_zero_cons hqr]
    exact ⟨Or.inr ⟨hpr, hqr, hpl, hql⟩, Or.inr ⟨rfl, rfl, hpr, hpl⟩⟩

/-- `consume` of a non-EOF token preserves the simulation relation and
returns the same token on both sides. -/
theorem extRel_consume {p q : Parser} (h : ExtRel p q)
    (hne : (p.consume).fst.tokenType ≠ .EOF) :
    (q.consume).fst = (p.consume).fst ∧
    ExtRel ((p.consume).snd) ((q.consume).snd) := by
  rcases h with ⟨hr, hno, hlex⟩ | ⟨hpr, hqr, hpl, hql⟩
  · cases hpread : p.read with
    | cons t r =>
      have hqread : q.read = t :: r := hr.trans hpread
      rw [consume_cons hpread, consume_cons hqread]
      refine ⟨rfl, Or.inl ⟨rfl, ?_, hlex⟩⟩
      intro u hu
      exact hno u (hpread ▸ List.mem_cons_of_mem t hu)
    | nil =>
      have hqread : q.read = [] := hr.trans hpread
      rw [consume_nil hpread, consume_nil hqread]
      cases hpl : lexAll p.tokens.text with
      | nil =>
        have hp := lexNext_of_lexAll_nil hpl
        have hpf : (p.tokens.next).fst = eofToken := by rw [Lexer.next, hp]
        rw [consume_nil hpread] at hne
        exact absurd (by simp [hpf, eofToken]) hne
      | cons t ts =>
        obtain ⟨hp1, hp2⟩ := lexNext_of_lexAll_cons hpl
        have hql : lexAll q.tokens.text = t :: (ts ++ [rparenToken]) := by
          rw [hlex, hpl]; rfl
        obtain ⟨hq1, hq2⟩ := lexNext_of_lexAll_cons hql
        have hpf : (p.tokens.next).fst = t := by
          rw [Lexer.next]; exact congrArg Prod.fst hp1
        have hqf : (q.tokens.next).fst = t := by
          rw [Lexer.next]; exact congrArg Prod.fst hq1
        have hps : lexAll ((p.tokens.next).snd).text = ts := by
          rw [Lexer.next]; exact hp2
        have hqs : lexAll ((q.tokens.next).snd).text = ts ++ [rparenToken] := by
          rw [Lexer.next]; exact hq2
        refine ⟨by rw [hpf, hqf], Or.inl ⟨rfl, by simp, by simp [hps, hqs]⟩⟩
  · rw [consume_cons hpr] at hne
    exact absurd rfl hne

/-- A pair equals the pairing of a known first component with its second. -/
theorem prod_eq_of_fst {α β : Type} {x : α × β} {a : α} (h : x.fst = a) :
    x = (a, x.snd) := by
  rw [← h]

/-- `get_precedence` under the simulation relation: equal precedences and
related states (with the Bantam grammar, where neither EOF nor `)` has an
infix parselet). -/
theorem extRel_getPrecedence {p q : Parser} (h : ExtRel p q) :
    (q.getPrecedence bantamGrammar).fst = (p.getPrecedence bantamGrammar).fst ∧
    ExtRel ((p.getPrecedence bantamGrammar).snd)
      ((q.getPrecedence bantamGrammar).snd) := by
  obtain ⟨hrel, hfst⟩ := extRel_lookAhead h
  refine ⟨?_, ?_⟩
  · rw [getPrecedence_fst, getPrecedence_fst]
    rcases hfst with he | ⟨hpe, hqe, _, _⟩
    · rw [he]
    · rw [hpe, hqe]
      rfl
  · rw [getPrecedence_snd, getPrecedence_snd]
    exact hrel

/-- `match_tok` on a kind other than EOF and `)` behaves identically on both
sides of the simulation relation. -/
theorem extRel_matchTok {p q : Parser} (k : TokenType) (h : ExtRel p q)
    (hk : k ≠ .EOF) (hk2 : k ≠ .RightParen) :
    (q.matchTok k).fst = (p.matchTok k).fst ∧
    ExtRel ((p.matchTok k).snd) ((q.matchTok k).snd) := by
  obtain ⟨hrel, hfst⟩ := extRel_lookAhead h
  simp only [Parser.matchTok]
  rcases hfst with he | ⟨hpe, hqe, _, _⟩
  · rw [he]
    by_cases hc : ((p.lookAhead 0).fst).tokenType = k
    · simp only [if_pos hc]
      have hcons := extRel_consume hrel
        (by rw [consume_after_lookAhead, hc]; exact hk)
      exact ⟨by trivial, hcons.2⟩
    · simp only [if_neg hc]
      exact ⟨by trivial, hrel⟩
  · rw [hpe, hqe]
    simp only [if_neg (show ¬ (rparenToken.tokenType = k) from fun hh => hk2 hh.symm)]
    simp only [if_neg (show ¬ (eofToken.tokenType = k) from fun hh => hk hh.symm)]
    exact ⟨by trivial, hrel⟩

/-- `match_tok RightParen` reporting true transfers across the simulation
relation. -/
theorem extRel_matchTok_rp_true {p q : Parser} (h : ExtRel p q)
    (ht : (p.matchTok .RightParen).fst = true) :
    (q.matchTok .RightParen).fst = true ∧
    ExtRel ((p.matchTok .RightParen).snd) ((q.matchTok .RightParen).snd) := by
  obtain ⟨hrel, hfst⟩ := extRel_lookAhead h
  have hc : ((p.lookAhead 0).fst).tokenType = .RightParen := by
    by_contra hc
    rw [Parser.matchTok] at ht
    simp only [if_neg hc] at ht
    exact Bool.noConfusion ht
  rcases hfst with he | ⟨hpe, _, _, _⟩
  · simp only [Parser.matchTok]
    rw [he]
    simp only [if_pos hc]
    have hcons := extRel_consume hrel
      (by rw [consume_after_lookAhead, hc]
          exact fun hh => TokenType.noConfusion hh)
    exact ⟨by trivial, hcons.2⟩
  · rw [hpe] at hc
    exact absurd hc (by simp [eofToken])

/-- `match_tok RightParen` reporting false either transfers across the
simulation relation, or the bare parse is at its end (its next token is the
EOF pad), in which case any subsequent expression parse fails. -/
theorem extRel_matchTok_rp_false {p q : Parser} (h : ExtRel p q)
    (hf : (p.matchTok .RightParen).fst = false) :
    ((q.matchTok .RightParen).fst = false ∧
      ExtRel ((p.matchTok .RightParen).snd) ((q.matchTok .RightParen).snd)) ∨
    (((p.matchTok .RightParen).snd).read = [eofToken] ∧
      lexAll ((((p.matchTok .RightParen).snd).tokens).text) = []) := by
  obtain ⟨hrel, hfst⟩ := extRel_lookAhead h
  have hc : ((p.lookAhead 0).fst).tokenType ≠ .RightParen := by
    intro hc
    rw [Parser.matchTok] at hf
    simp only [if_pos hc] at hf
    exact Bool.noConfusion hf
  rcases hfst with he | ⟨hpe, hqe, hread, hlex⟩
  · left
    simp only [Parser.matchTok]
    rw [he]
    simp only [if_neg hc]
    exact ⟨by trivial, hrel⟩
  · right
    simp only [Parser.matchTok]
    rw [if_neg hc]
    exact ⟨hread, hlex⟩

/-- A successful `consume_expected` of a non-EOF kind transfers across the
simulation relation. -/
theorem extRel_consumeExpected {p q : Parser} {k : TokenType} {t : Token}
    {p' : Parser} (h : ExtRel p q) (hk : k ≠ .EOF)
    (hce : p.consumeExpected k = .ok (t, p')) :
    ∃ q', q.consumeExpected k = .ok (t, q') ∧ ExtRel p' q' := by
  obtain ⟨hrel, hfst⟩ := extRel_lookAhead h
  simp only [Parser.consumeExpected] at hce ⊢
  split at hce
  · rename_i hc
    have hinj := Except.ok.inj hce
    have hft := congrArg Prod.fst hinj
    have hst := congrArg Prod.snd hinj
    rcases hfst with he | ⟨hpe, _, _, _⟩
    · rw [he, if_pos hc]
      have hcons := extRel_consume hrel
        (by rw [consume_after_lookAhead, hc]; exact hk)
      have hst2 : (((p.lookAhead 0).snd).consume).snd = p' := hst
      refine ⟨((((q.lookAhead 0).snd).consume)).snd, ?_, hst2 ▸ hcons.2⟩
      rw [prod_eq_of_fst (hcons.1.trans hft)]
    · rw [hpe] at hc
      exact absurd (show k = .EOF by rw [← hc]; rfl) hk
  · exact Except.noConfusion hce

/-- An expression parse whose state has buffered the EOF pad fails: there is
no prefix parselet for EOF. -/
theorem parse_fail_of_eof {p : Parser} (hr : p.read = [eofToken])
    (fuel : Nat) (minPrec : Precedence) (r : Expression × Parser) :
    parseExpressionPrecedence bantamGrammar fuel minPrec p ≠ .ok r := by
  cases fuel with
  | zero => rw [parseExpressionPrecedence]; exact fun h => Except.noConfusion h
  | succ fuel =>
    intro h
    simp only [parseExpressionPrecedence] at h
    rw [show (p.consume).fst = eofToken from by rw [consume_cons hr]] at h
    exact Except.noConfusion h

/-- The call-argument loop fails as well when the state has buffered EOF. -/
theorem callArgs_fail_of_eof {p : Parser} (hr : p.read = [eofToken])
    (fuel : Nat) (r : List Expression × Parser) :
    callArgsLoop bantamGrammar fuel p ≠ .ok r := by
  cases fuel with
  | zero => rw [callArgsLoop]; exact fun h => Except.noConfusion h
  | succ fuel =>
    intro h
    simp only [callArgsLoop] at h
    cases hp : parseExpressionPrecedence bantamGrammar fuel .Everything p with
    | ok rr => exact parse_fail_of_eof hr fuel .Everything rr hp
    | error e =>
      rw [hp] at h
      exact Except.noConfusion h

/-- Fuel monotonicity: a successful run of any of the five mutual parse
functions stays successful, with the same result, at any larger fuel. -/
theorem fuelMonoAll (g : Grammar) : ∀ fuel fuel' : Nat, fuel ≤ fuel' →
    (∀ (minPrec : Precedence) (p : Parser) (r : Expression × Parser),
        parseExpressionPrecedence g fuel minPrec p = .ok r →
        parseExpressionPrecedence g fuel' minPrec p = .ok r) ∧
    (∀ (minPrec : Precedence) (left : Expression) (p : Parser)
        (r : Expression × Parser),
        infixLoop g fuel minPrec left p = .ok r →
        infixLoop g fuel' minPrec left p = .ok r) ∧
    (∀ (pl : PrefixParselet) (tok : Token) (p : Parser)
        (r : Expression × Parser),
        runPrefixParselet g fuel pl tok p = .ok r →
        runPrefixParselet g fuel' pl tok p = .ok r) ∧
    (∀ (ip : InfixParselet) (left : Expression) (tok : Token) (p : Parser)
        (r : Expression × Parser),
        runInfixParselet g fuel ip left tok p = .ok r →
        runInfixParselet g fuel' ip left tok p = .ok r) ∧
    (∀ (p : Parser) (r : List Expression × Parser),
        callArgsLoop g fuel p = .ok r → callArgsLoop g fuel' p = .ok r) := by
  intro fuel
  induction fuel with
  | zero =>
    intro fuel' _
    refine ⟨?_, ?_, ?_, ?_, ?_⟩
    · intro _ _ _ h; rw [parseExpressionPrecedence] at h
      exact absurd h (fun hh => Except.noConfusion hh)
    · intro _ _ _ _ h; rw [infixLoop] at h
      exact absurd h (fun hh => Except.noConfusion hh)
    · intro _ _ _ _ h; rw [runPrefixParselet] at h
      exact absurd h (fun hh => Except.noConfusion hh)
    · intro _ _ _ _ _ h; rw [runInfixParselet] at h
      exact absurd h (fun hh => Except.noConfusion hh)
    · intro _ _ h; rw [callArgsLoop] at h
      exact absurd h (fun hh => Except.noConfusion hh)
  | succ fuel ih =>
    intro fuel' hle
    obtain ⟨fuel'', rfl⟩ : ∃ k, fuel' = k + 1 := ⟨fuel' - 1, by omega⟩
    have hle' : fuel ≤ fuel'' := by omega
    obtain ⟨ihE, ihL, ihP, ihI, ihA⟩ := ih fuel'' hle'
    refine ⟨?_, ?_, ?_, ?_, ?_⟩
    · intro minPrec p r h
      simp only [parseExpressionPrecedence] at h ⊢
      split at h
      · exact Except.noConfusion h
      · rename_i pl hpl
        split at h
        · exact Except.noConfusion h
        · rename_i lp hlp
          rw [ihP _ _ _ _ hlp]
          exact ihL _ _ _ _ h
    · intro minPrec left p r h
      simp only [infixLoop] at h ⊢
      split at h
      · rename_i hguard
        rw [if_pos hguard]
        split at h
        · exact Except.noConfusion h
        · rename_i ip hip
          split at h
          · exact Except.noConfusion h
          · rename_i lp hlp
            rw [ihI _ _ _ _ _ hlp]
            exact ihL _ _ _ _ h
      · rename_i hguard
        rw [if_neg hguard]
        exact h
    · intro pl tok p r h
      cases pl with
      | nameParselet => rw [runPrefixParselet] at h ⊢; exact h
      | prefixOpParselet prec =>
        simp only [runPrefixParselet] at h ⊢
        split at h
        · exact Except.noConfusion h
        · rename_i op hop
          rw [ihE _ _ _ hop]
          exact h
      | groupParselet =>
        simp only [runPrefixParselet] at h ⊢
        split at h
        · exact Except.noConfusion h
        · rename_i ep hep
          rw [ihE _ _ _ hep]
          exact h
    · intro ip left tok p r h
      cases ip with
      | binaryOpParselet prec isRight =>
        simp only [runInfixParselet] at h ⊢
        split at h
        · exact Except.noConfusion h
        · rename_i q hq
          split at h
          · exact Except.noConfusion h
          · rename_i rp hrp
            rw [ihE _ _ _ hrp]
            exact h
      | postfixOpParselet prec => rw [runInfixParselet] at h ⊢; exact h
      | conditionalParselet =>
        simp only [runInfixParselet] at h ⊢
        split at h
        · exact Except.noConfusion h
        · rename_i tp htp
          rw [ihE _ _ _ htp]
          split at h
          · exact Except.noConfusion h
          · rename_i cp hcp
            split at h
            · exact Except.noConfusion h
            · rename_i q hq
              split at h
              · exact Except.noConfusion h
              · rename_i ep hep
                simp only [hcp, ihE _ _ _ hep]
                exact h
      | assignParselet =>
        simp only [runInfixParselet] at h ⊢
        split at h
        · exact Except.noConfusion h
        · rename_i q hq
          split at h
          · exact Except.noConfusion h
          · rename_i rp hrp
            rw [ihE _ _ _ hrp]
            exact h
      | callParselet =>
        simp only [runInfixParselet] at h ⊢
        split at h
        · rename_i htrue
          rw [if_pos htrue]
          exact h
        · rename_i hfalse
          rw [if_neg hfalse]
          split at h
          · exact Except.noConfusion h
          · rename_i ap hap
            simp only [ihA _ _ hap]
            exact h
    · intro p r h
      simp only [callArgsLoop] at h ⊢
      split at h
      · exact Except.noConfusion h
      · rename_i ap hap
        simp only [ihE _ _ _ hap]
        split at h
        · rename_i hcomma
          rw [if_pos hcomma]
          split at h
          · exact Except.noConfusion h
          · rename_i rest hrest
            simp only [ihA _ _ hrest]
            exact h
        · rename_i hcomma
          rw [if_neg hcomma]
          exact h

/-- The simulation: a successful run of any of the five mutual parse
functions on the bare state transfers to the parenthesized state, producing
the identical parse result and related final states. The wrapped run never
reaches its extra `)` because the bare run succeeded without it. -/
theorem simAll : ∀ fuel : Nat,
    (∀ (minPrec : Precedence) (p q : Parser) (e : Expression) (p' : Parser),
        ExtRel p q →
        parseExpressionPrecedence bantamGrammar fuel minPrec p = .ok (e, p') →
        ∃ q', parseExpressionPrecedence bantamGrammar fuel minPrec q =
          .ok (e, q') ∧ ExtRel p' q') ∧
    (∀ (minPrec : Precedence) (left : Expression) (p q : Parser)
        (e : Expression) (p' : Parser), ExtRel p q →
        infixLoop bantamGrammar fuel minPrec left p = .ok (e, p') →
        ∃ q', infixLoop bantamGrammar fuel minPrec left q = .ok (e, q') ∧
          ExtRel p' q') ∧
    (∀ (pl : PrefixParselet) (tok : Token) (p q : Parser) (e : Expression)
        (p' : Parser), ExtRel p q →
        runPrefixParselet bantamGrammar fuel pl tok p = .ok (e, p') →
        ∃ q', runPrefixParselet bantamGrammar fuel pl tok q = .ok (e, q') ∧
          ExtRel p' q') ∧
    (∀ (ip : InfixParselet) (left : Expression) (tok : Token) (p q : Parser)
        (e : Expression) (p' : Parser), ExtRel p q →
        runInfixParselet bantamGrammar fuel ip left tok p = .ok (e, p') →
        ∃ q', runInfixParselet bantamGrammar fuel ip left tok q =
          .ok (e, q') ∧ ExtRel p' q') ∧
    (∀ (p q : Parser) (args : List Expression) (p' : Parser), ExtRel p q →
        callArgsLoop bantamGrammar fuel p = .ok (args, p') →
        ∃ q', callArgsLoop bantamGrammar fuel q = .ok (args, q') ∧
          ExtRel p' q') := by
  intro fuel
  induction fuel with
  | zero =>
    refine ⟨?_, ?_, ?_, ?_, ?_⟩
    · intro _ _ _ _ _ _ h; rw [parseExpressionPrecedence] at h
      exact absurd h (fun hh => Except.noConfusion hh)
    · intro _ _ _ _ _ _ _ h; rw [infixLoop] at h
      exact absurd h (fun hh => Except.noConfusion hh)
    · intro _ _ _ _ _ _ _ h; rw [runPrefixParselet] at h
      exact absurd h (fun hh => Except.noConfusion hh)
    · intro _ _ _ _ _ _ _ _ h; rw [runInfixParselet] at h
      exact absurd h (fun hh => Except.noConfusion hh)
    · intro _ _ _ _ _ h; rw [callArgsLoop] at h
      exact absurd h (fun hh => Except.noConfusion hh)
  | succ fuel ih =>
    obtain ⟨ihE, ihL, ihP, ihI, ihA⟩ := ih
    refine ⟨?_, ?_, ?_, ?_, ?_⟩
    · -- parseExpressionPrecedence
      intro minPrec p q e p' hrel h
      simp only [parseExpressionPrecedence] at h ⊢
      split at h
      · exact Except.noConfusion h
      · rename_i pl hpl
        have hne : ((p.consume).fst).tokenType ≠ .EOF := by
          intro he
          rw [he] at hpl
          have hnone : (none : Option PrefixParselet) = some pl := hpl
          exact Option.noConfusion hnone
        obtain ⟨hfq, hrel1⟩ := extRel_consume hrel hne
        simp only [hfq, hpl]
        split at h
        · exact Except.noConfusion h
        · rename_i lp hlp
          obtain ⟨lq, hlq, hrel2⟩ := ihP pl (p.consume).fst (p.consume).snd
            (q.consume).snd lp.fst lp.snd hrel1 hlp
          simp only [hlq]
          exact ihL minPrec lp.fst lp.snd lq e p' hrel2 h
    · -- infixLoop
      intro minPrec left p q e p' hrel h
      simp only [infixLoop] at h ⊢
      obtain ⟨hgp, hrel1⟩ := extRel_getPrecedence hrel
      rw [hgp]
      split at h
      · rename_i hguard
        rw [if_pos hguard]
        have hne : ((((p.getPrecedence bantamGrammar).snd).consume).fst).tokenType
            ≠ .EOF := by
          intro he
          have h1 : (((p.getPrecedence bantamGrammar).snd).consume).fst =
              (p.lookAhead 0).fst := by
            rw [getPrecedence_snd, consume_after_lookAhead]
          have h2 : (p.getPrecedence bantamGrammar).fst = .Everything := by
            rw [getPrecedence_fst,
              show ((p.lookAhead 0).fst).tokenType = .EOF from by
                rw [← h1]; exact he]
            rfl
          rw [h2] at hguard
          exact absurd hguard (by simp [Precedence.toNat])
        obtain ⟨hfq, hrel2⟩ := extRel_consume hrel1 hne
        simp only [hfq]
        split at h
        · exact Except.noConfusion h
        · rename_i ip hip
          split at h
          · exact Except.noConfusion h
          · rename_i lp hlp
            obtain ⟨lq, hlq, hrel3⟩ := ihI ip left
              ((((p.getPrecedence bantamGrammar).snd).consume)).fst
              ((((p.getPrecedence bantamGrammar).snd).consume)).snd
              ((((q.getPrecedence bantamGrammar).snd).consume)).snd
              lp.fst lp.snd hrel2 hlp
            simp only [hlq]
            exact ihL minPrec lp.fst lp.snd lq e p' hrel3 h
      · rename_i hguard
        rw [if_neg hguard]
        obtain ⟨rfl, rfl⟩ := Prod.mk.inj (Except.ok.inj h)
        exact ⟨(q.getPrecedence bantamGrammar).snd, rfl, hrel1⟩
    · -- runPrefixParselet
      intro pl tok p q e p' hrel h
      cases pl with
      | nameParselet =>
        rw [runPrefixParselet] at h
        obtain ⟨rfl, rfl⟩ := Prod.mk.inj (Except.ok.inj h)
        exact ⟨q, rfl, hrel⟩
      | prefixOpParselet prec =>
        simp only [runPrefixParselet] at h ⊢
        split at h
        · exact Except.noConfusion h
        · rename_i op hop
          obtain ⟨oq, hoq, hrel1⟩ := ihE prec p q op.fst op.snd hrel hop
          simp only [hoq]
          obtain ⟨rfl, rfl⟩ := Prod.mk.inj (Except.ok.inj h)
          exact ⟨oq, rfl, hrel1⟩
      | groupParselet =>
        simp only [runPrefixParselet] at h ⊢
        split at h
        · exact Except.noConfusion h
        · rename_i ep hep
          obtain ⟨eq', heq', hrel1⟩ := ihE .Everything p q ep.fst ep.snd hrel hep
          simp only [heq']
          split at h
          · exact Except.noConfusion h
          · rename_i tp htp
            obtain ⟨q2, hq2, hrel2⟩ := extRel_consumeExpected hrel1
              (by decide) htp
            simp only [hq2]
            obtain ⟨rfl, rfl⟩ := Prod.mk.inj (Except.ok.inj h)
            exact ⟨q2, rfl, hrel2⟩
    · -- runInfixParselet
      intro ip left tok p q e p' hrel h
      cases ip with
      | binaryOpParselet prec isRight =>
        simp only [runInfixParselet] at h ⊢
        split at h
        · exact Except.noConfusion h
        · rename_i pq hpq
          split at h
          · exact Except.noConfusion h
          · rename_i rp hrp
            obtain ⟨rq, hrq, hrel1⟩ := ihE pq p q rp.fst rp.snd hrel hrp
            simp only [hrq]
            obtain ⟨rfl, rfl⟩ := Prod.mk.inj (Except.ok.inj h)
            exact ⟨rq, rfl, hrel1⟩
      | postfixOpParselet prec =>
        rw [runInfixParselet] at h
        obtain ⟨rfl, rfl⟩ := Prod.mk.inj (Except.ok.inj h)
        exact ⟨q, rfl, hrel⟩
      | conditionalParselet =>
        simp only [runInfixParselet] at h ⊢
        split at h
        · exact Except.noConfusion h
        · rename_i tp htp
          obtain ⟨tq, htq, hrel1⟩ := ihE .Everything p q tp.fst tp.snd hrel htp
          simp only [htq]
          split at h
          · exact Except.noConfusion h
          · rename_i cp hcp
            obtain ⟨q2, hq2, hrel2⟩ := extRel_consumeExpected hrel1
              (by decide) hcp
            simp only [hq2]
            split at h
            · exact Except.noConfusion h
            · rename_i pq hpq
              split at h
              · exact Except.noConfusion h
              · rename_i ep hep
                obtain ⟨eq2, heq2, hrel3⟩ := ihE pq cp.snd q2 ep.fst ep.snd
                  hrel2 hep
                simp only [heq2]
                obtain ⟨rfl, rfl⟩ := Prod.mk.inj (Except.ok.inj h)
                exact ⟨eq2, rfl, hrel3⟩
      | assignParselet =>
        simp only [runInfixParselet] at h ⊢
        split at h
        · exact Except.noConfusion h
        · rename_i pq hpq
          split at h
          · exact Except.noConfusion h
          · rename_i rp hrp
            obtain ⟨rq, hrq, hrel1⟩ := ihE pq p q rp.fst rp.snd hrel hrp
            simp only [hrq]
            split at h
            · rename_i n
              obtain ⟨rfl, rfl⟩ := Prod.mk.inj (Except.ok.inj h)
              exact ⟨rq, rfl, hrel1⟩
            · exact Except.noConfusion h
      | callParselet =>
        simp only [runInfixParselet] at h ⊢
        split at h
        · rename_i htrue
          obtain ⟨hqt, hrelm⟩ := extRel_matchTok_rp_true hrel htrue
          rw [if_pos hqt]
          obtain ⟨rfl, rfl⟩ := Prod.mk.inj (Except.ok.inj h)
          exact ⟨(q.matchTok .RightParen).snd, rfl, hrelm⟩
        · rename_i hfalse
          have hfalse' : (p.matchTok .RightParen).fst = false := by
            revert hfalse
            cases (p.matchTok .RightParen).fst <;> simp
          rcases extRel_matchTok_rp_false hrel hfalse' with
            ⟨hqf, hrelm⟩ | ⟨hread, hlex⟩
          · rw [if_neg (by rw [hqf]; exact fun hh => Bool.noConfusion hh)]
            split at h
            · exact Except.noConfusion h
            · rename_i ap hap
              obtain ⟨aq, haq, hrel2⟩ := ihA ((p.matchTok .RightParen).snd)
                ((q.matchTok .RightParen).snd) ap.fst ap.snd hrelm hap
              simp only [haq]
              split at h
              · exact Except.noConfusion h
              · rename_i tp htp
                obtain ⟨q2, hq2, hrel3⟩ := extRel_consumeExpected hrel2
                  (by decide) htp
                simp only [hq2]
                obtain ⟨rfl, rfl⟩ := Prod.mk.inj (Except.ok.inj h)
                exact ⟨q2, rfl, hrel3⟩
          · split at h
            · exact Except.noConfusion h
            · rename_i ap hap
              exact absurd hap (callArgs_fail_of_eof hread fuel ap)
    · -- callArgsLoop
      intro p q args p' hrel h
      simp only [callArgsLoop] at h ⊢
      split at h
      · exact Except.noConfusion h
      · rename_i ap hap
        obtain ⟨aq, haq, hrel1⟩ := ihE .Everything p q ap.fst ap.snd hrel hap
        simp only [haq]
        obtain ⟨hmf, hrelm⟩ := extRel_matchTok .Comma hrel1 (by decide) (by decide)
        split at h
        · rename_i hcomma
          rw [if_pos (by rw [hmf]; exact hcomma)]
          split at h
          · exact Except.noConfusion h
          · rename_i rest hrest
            obtain ⟨rq, hrq, hrel2⟩ := ihA (((ap.snd).matchTok .Comma)).snd
              ((aq.matchTok .Comma)).snd rest.fst rest.snd hrelm hrest
            simp only [hrq]
            obtain ⟨rfl, rfl⟩ := Prod.mk.inj (Except.ok.inj h)
            exact ⟨rq, rfl, hrel2⟩
        · rename_i hcomma
          rw [if_neg (by rw [hmf]; exact hcomma)]
          obtain ⟨rfl, rfl⟩ := Prod.mk.inj (Except.ok.inj h)
          exact ⟨(aq.matchTok .Comma).snd, rfl, hrelm⟩

/-- `look_ahead(0)` keeps the buffer within one token. -/
theorem lookAhead_zero_read_bound {p : Parser} (h : p.read.length ≤ 1) :
    ((p.lookAhead 0).snd).read.length ≤ 1 := by
  simp only [Parser.lookAhead]
  rw [fillN_read_length]
  omega

/-- `consume` keeps the buffer within one token. -/
theorem consume_read_bound {p : Parser} (h : p.read.length ≤ 1) :
    ((p.consume).snd).read.length ≤ 1 := by
  cases hr : p.read with
  | nil => rw [consume_nil hr]; simp
  | cons t r =>
    rw [consume_cons hr]
    have : p.read.length = r.length + 1 := by rw [hr]; simp
    simpa using by omega

/-- `match_tok` keeps the buffer within one token. -/
theorem matchTok_read_bound (k : TokenType) {p : Parser} (h : p.read.length ≤ 1) :
    ((p.matchTok k).snd).read.length ≤ 1 := by
  rw [Parser.matchTok]
  split
  · exact consume_read_bound (lookAhead_zero_read_bound h)
  · exact lookAhead_zero_read_bound h

/-- A successful `consume_expected` keeps the buffer within one token. -/
theorem consumeExpected_read_bound {p : Parser} {k : TokenType} {t : Token}
    {p' : Parser} (h : p.read.length ≤ 1)
    (he : p.consumeExpected k = .ok (t, p')) : p'.read.length ≤ 1 := by
  rw [Parser.consumeExpected] at he
  split at he
  · have h2 := congrArg (fun x => x.snd) (Except.ok.inj he)
    simp only at h2
    rw [← h2]
    exact consume_read_bound (lookAhead_zero_read_bound h)
  · exact Except.noConfusion he

/-- `get_precedence` keeps the buffer within one token. -/
theorem getPrecedence_read_bound (g : Grammar) {p : Parser}
    (h : p.read.length ≤ 1) :
    ((p.getPrecedence g).snd).read.length ≤ 1 := by
  rw [Parser.getPrecedence]
  split <;> exact lookAhead_zero_read_bound h

/-- All five mutual parse functions preserve the one-token buffer bound;
every intermediate state in the parse is produced from a bounded state by
one of the primitive operations, each of which preserves the bound. -/
theorem readBoundAll (g : Grammar) : ∀ fuel : Nat,
    (∀ (minPrec : Precedence) (p : Parser) (e : Expression) (p' : Parser),
        p.read.length ≤ 1 →
        parseExpressionPrecedence g fuel minPrec p = .ok (e, p') →
        p'.read.length ≤ 1) ∧
    (∀ (minPrec : Precedence) (left : Expression) (p : Parser) (e : Expression)
        (p' : Parser), p.read.length ≤ 1 →
        infixLoop g fuel minPrec left p = .ok (e, p') → p'.read.length ≤ 1) ∧
    (∀ (pl : PrefixParselet) (tok : Token) (p : Parser) (e : Expression)
        (p' : Parser), p.read.length ≤ 1 →
        runPrefixParselet g fuel pl tok p = .ok (e, p') → p'.read.length ≤ 1) ∧
    (∀ (ip : InfixParselet) (left : Expression) (tok : Token) (p : Parser)
        (e : Expression) (p' : Parser), p.read.length ≤ 1 →
        runInfixParselet g fuel ip left tok p = .ok (e, p') →
        p'.read.length ≤ 1) ∧
    (∀ (p : Parser) (args : List Expression) (p' : Parser), p.read.length ≤ 1 →
        callArgsLoop g fuel p = .ok (args, p') → p'.read.length ≤ 1) := by
  intro fuel
  induction fuel with
  | zero =>
    refine ⟨?_, ?_, ?_, ?_, ?_⟩
    · intro _ _ _ _ _ h; rw [parseExpressionPrecedence] at h
      exact Except.noConfusion h
    · intro _ _ _ _ _ _ h; rw [infixLoop] at h; exact Except.noConfusion h
    · intro _ _ _ _ _ _ h; rw [runPrefixParselet] at h
      exact Except.noConfusion h
    · intro _ _ _ _ _ _ _ h; rw [runInfixParselet] at h
      exact Except.noConfusion h
    · intro _ _ _ _ h; rw [callArgsLoop] at h; exact Except.noConfusion h
  | succ fuel ih =>
    obtain ⟨ihE, ihL, ihP, ihI, ihA⟩ := ih
    refine ⟨?_, ?_, ?_, ?_, ?_⟩
    · -- parseExpressionPrecedence
      intro minPrec p e p' hb h
      simp only [parseExpressionPrecedence] at h
      split at h
      · exact Except.noConfusion h
      · rename_i pl hpl
        split at h
        · exact Except.noConfusion h
        · rename_i lp hlp
          have hb1 : ((p.consume).snd).read.length ≤ 1 := consume_read_bound hb
          have hb2 := ihP pl (p.consume).fst (p.consume).snd lp.fst lp.snd hb1 hlp
          exact ihL minPrec lp.fst lp.snd e p' hb2 h
    · -- infixLoop
      intro minPrec left p e p' hb h
      simp only [infixLoop] at h
      split at h
      · split at h
        · exact Except.noConfusion h
        · rename_i ip hip
          split at h
          · exact Except.noConfusion h
          · rename_i lp hlp
            have hb1 := getPrecedence_read_bound g hb
            have hb2 := consume_read_bound hb1
            have hb3 := ihI ip left (((p.getPrecedence g).snd).consume).fst
              (((p.getPrecedence g).snd).consume).snd lp.fst lp.snd hb2 hlp
            exact ihL minPrec lp.fst lp.snd e p' hb3 h
      · obtain ⟨rfl, rfl⟩ := Prod.mk.inj (Except.ok.inj h)
        exact getPrecedence_read_bound g hb
    · -- runPrefixParselet
      intro pl tok p e p' hb h
      cases pl with
      | nameParselet =>
        rw [runPrefixParselet] at h
        obtain ⟨rfl, rfl⟩ := Prod.mk.inj (Except.ok.inj h)
        exact hb
      | prefixOpParselet prec =>
        simp only [runPrefixParselet] at h
        split at h
        · exact Except.noConfusion h
        · rename_i op hop
          obtain ⟨rfl, rfl⟩ := Prod.mk.inj (Except.ok.inj h)
          exact ihE prec p op.fst op.snd hb hop
      | groupParselet =>
        simp only [runPrefixParselet] at h
        split at h
        · exact Except.noConfusion h
        · rename_i ep hep
          split at h
          · exact Except.noConfusion h
          · rename_i tp htp
            obtain ⟨rfl, rfl⟩ := Prod.mk.inj (Except.ok.inj h)
            have hb1 := ihE .Everything p ep.fst ep.snd hb hep
            exact consumeExpected_read_bound hb1 htp
    · -- runInfixParselet
      intro ip left tok p e p' hb h
      cases ip with
      | binaryOpParselet prec isRight =>
        simp only [runInfixParselet] at h
        split at h
        · exact Except.noConfusion h
        · rename_i q hq
          split at h
          · exact Except.noConfusion h
          · rename_i rp hrp
            obtain ⟨rfl, rfl⟩ := Prod.mk.inj (Except.ok.inj h)
            exact ihE q p rp.fst rp.snd hb hrp
      | postfixOpParselet prec =>
        rw [runInfixParselet] at h
        obtain ⟨rfl, rfl⟩ := Prod.mk.inj (Except.ok.inj h)
        exact hb
      | conditionalParselet =>
        simp only [runInfixParselet] at h
        split at h
        · exact Except.noConfusion h
        · rename_i tp htp
          split at h
          · exact Except.noConfusion h
          · rename_i cp hcp
            split at h
            · exact Except.noConfusion h
            · rename_i q hq
              split at h
              · exact Except.noConfusion h
              · rename_i ep hep
                obtain ⟨rfl, rfl⟩ := Prod.mk.inj (Except.ok.inj h)
                have hb1 := ihE .Everything p tp.fst tp.snd hb htp
                have hb2 := consumeExpected_read_bound hb1 hcp
                exact ihE q cp.snd ep.fst ep.snd hb2 hep
      | assignParselet =>
        simp only [runInfixParselet] at h
        split at h
        · exact Except.noConfusion h
        · rename_i q hq
          split at h
          · exact Except.noConfusion h
          · rename_i rp hrp
            split at h
            · rename_i n
              obtain ⟨rfl, rfl⟩ := Prod.mk.inj (Except.ok.inj h)
              exact ihE q p rp.fst rp.snd hb hrp
            · exact Except.noConfusion h
      | callParselet =>
        simp only [runInfixParselet] at h
        split at h
        · obtain ⟨rfl, rfl⟩ := Prod.mk.inj (Except.ok.inj h)
          exact matchTok_read_bound .RightParen hb
        · split at h
          · exact Except.noConfusion h
          · rename_i ap hap
            split at h
            · exact Except.noConfusion h
            · rename_i tp htp
              obtain ⟨rfl, rfl⟩ := Prod.mk.inj (Except.ok.inj h)
              have hb1 := matchTok_read_bound .RightParen hb
              have hb2 := ihA ((p.matchTok .RightParen).snd) ap.fst ap.snd hb1 hap
              exact consumeExpected_read_bound hb2 htp
    · -- callArgsLoop
      intro p args p' hb h
      simp only [callArgsLoop] at h
      split at h
      · exact Except.noConfusion h
      · rename_i ap hap
        have hb1 := ihE .Everything p ap.fst ap.snd hb hap
        have hb2 := matchTok_read_bound .Comma hb1
        split at h
        · split at h
          · exact Except.noConfusion h
          · rename_i rest hrest
            obtain ⟨rfl, rfl⟩ := Prod.mk.inj (Except.ok.inj h)
            exact ihA ((ap.snd.matchTok .Comma).snd) rest.fst rest.snd hb2 hrest
        · obtain ⟨rfl, rfl⟩ := Prod.mk.inj (Except.ok.inj h)
          exact hb2

/-! ## Claim theorems (first batch) -/

/-- C1: left-associative binary operators parse their right operand at their
own precedence and right-associative ones at one level lower, so
`a + b - c` prints as `((a + b) - c)`, `a * b / c` as `((a * b) / c)`,
`a ^ b ^ c` as `(a ^ (b ^ c))` and `a = b = c` as `(a = (b = c))`. -/
theorem c1_associativity_encoding :
    parseAndPrint "a + b - c" = .ok "((a + b) - c)" ∧
    parseAndPrint "a * b / c" = .ok "((a * b) / c)" ∧
    parseAndPrint "a ^ b ^ c" = .ok "(a ^ (b ^ c))" ∧
    parseAndPrint "a = b = c" = .ok "(a = (b = c))" :=
  ⟨rfl, rfl, rfl, rfl⟩

/-- C2: the climbing loop runs only while the minimum precedence is strictly
below the next token's declared infix precedence (otherwise it returns the
accumulated left-hand side at once), and with the full Bantam grammar the
input `a = b + c * d ^ e - f / g` pretty-prints as
`(a = ((b + (c * (d ^ e))) - (f / g)))`. -/
theorem c2_mixed_precedence_climbing :
    (∀ (fuel : Nat) (minPrec : Precedence) (left : Expression) (p : Parser),
        ¬ minPrec.toNat < ((p.getPrecedence bantamGrammar).fst).toNat →
        infixLoop bantamGrammar (fuel + 1) minPrec left p =
          .ok (left, (p.getPrecedence bantamGrammar).snd)) ∧
    parseAndPrint "a = b + c * d ^ e - f / g" =
      .ok "(a = ((b + (c * (d ^ e))) - (f / g)))" := by
  refine ⟨fun fuel minPrec left p h => ?_, rfl⟩
  rw [infixLoop, if_neg h]

/-- C2 witness: the loop-exit clause of `c2_mixed_precedence_climbing`,
instantiated at a parser whose next token is the name `z` (which has no
infix parselet, hence catch-all precedence). -/
theorem c2_witness :
    infixLoop bantamGrammar 1 .Everything (.nameExpr "x") (mkParser "z") =
      .ok (.nameExpr "x", ((mkParser "z").getPrecedence bantamGrammar).snd) :=
  c2_mixed_precedence_climbing.1 0 .Everything (.nameExpr "x") (mkParser "z")
    (by decide)

/-- C3: the conditional parselet parses the then-branch at full precedence,
requires a `:` (fatal otherwise, as on input `a ? b`), and parses the
else-branch at `Conditional − 1`; hence `a ? b : c ? d : e` prints as
`(a ? b : (c ? d : e))` and `a ? b ? c : d : e` as `(a ? (b ? c : d) : e)`. -/
theorem c3_conditional_parselet :
    parseAndPrint "a ? b : c ? d : e" = .ok "(a ? b : (c ? d : e))" ∧
    parseAndPrint "a ? b ? c : d : e" = .ok "(a ? (b ? c : d) : e)" ∧
    parseStringE "a ? b" = .error (.expectedTok .Colon .EOF) :=
  ⟨rfl, rfl, rfl⟩

/-- C5: each fatal path aborts the whole parse with a reported error and no
tree: a missing `)` after a group, a missing `)` after call arguments, a
missing `:` after a conditional's then-branch, and a non-name left-hand side
of `=`. -/
theorem c5_fatal_paths :
    parseStringE "(a" = .error (.expectedTok .RightParen .EOF) ∧
    parseStringE "a(b, c" = .error (.expectedTok .RightParen .EOF) ∧
    parseStringE "x ? y" = .error (.expectedTok .Colon .EOF) ∧
    parseStringE "a + b = c" = .error .invalidAssignmentTarget :=
  ⟨rfl, rfl, rfl, rfl⟩

/-- C6: the lexer silently skips unrecognized characters, pads with EOF
forever once the scan is exhausted, and `look_ahead(k)` always succeeds,
leaving exactly `max (k+1) (buffered)` tokens in the buffer. -/
theorem c6_lexer_totality_eof_padding :
    (∀ (c : Char) (rest : List Char), punctuatorFor c = none → ¬ c.isAlpha →
        lexNext (c :: rest) = lexNext rest) ∧
    (∀ l : Lexer, lexAll l.text = [] →
        ∀ k, pullN l k = List.replicate k eofToken) ∧
    (∀ (p : Parser) (k : Nat),
        ((p.lookAhead k).snd.read).length = max (k + 1) p.read.length) := by
  refine ⟨fun c rest hp ha => ?_, fun l hl k => ?_, fun p k => ?_⟩
  · rw [lexNext, hp, if_neg ha]
  · induction k generalizing l with
    | zero => rfl
    | succ m ih =>
      have hn : l.next = (eofToken, ⟨[]⟩) := by
        rw [Lexer.next, lexNext_of_lexAll_nil hl]
      rw [pullN, hn]
      simpa [List.replicate] using ih ⟨[]⟩ lexAll_nil
  · simp only [Parser.lookAhead]
    rw [fillN_read_length]
    omega

/-- C6 witness: instances of the skip clause and the EOF-padding clause of
`c6_lexer_totality_eof_padding`. -/
theorem c6_witness :
    lexNext [' ', 'p'] = lexNext ['p'] ∧
    pullN ⟨[]⟩ 2 = List.replicate 2 eofToken :=
  ⟨c6_lexer_totality_eof_padding.1 ' ' ['p'] rfl (by decide),
   c6_lexer_totality_eof_padding.2.1 ⟨[]⟩ lexAll_nil 2⟩

/-- C9: a token with no registered infix parselet makes the climbing loop
stop and return the accumulated tree, so a top-level parse silently leaves
trailing input unconsumed: `a b` parses to the name `a` with the token `b`
still buffered. -/
theorem c9_trailing_input_ignored :
    (∀ (fuel : Nat) (minPrec : Precedence) (left : Expression) (p : Parser),
        bantamGrammar.infixParselets ((p.lookAhead 0).fst.tokenType) = none →
        infixLoop bantamGrammar (fuel + 1) minPrec left p =
          .ok (left, (p.lookAhead 0).snd)) ∧
    parseStringE "a b" = .ok (.nameExpr "a", ⟨⟨[]⟩, [⟨.Name, "b"⟩]⟩) ∧
    parseAndPrint "a b" = .ok "a" := by
  refine ⟨fun fuel minPrec left p h => ?_, rfl, rfl⟩
  rw [infixLoop]
  have hgp : p.getPrecedence bantamGrammar = (.Everything, (p.lookAhead 0).snd) := by
    rw [Parser.getPrecedence, h]
  rw [hgp, if_neg (by simp [Precedence.toNat])]

/-- C9 witness: the loop-exit clause of `c9_trailing_input_ignored` at a
parser whose next token is `)` (no infix parselet registered). -/
theorem c9_witness :
    infixLoop bantamGrammar 1 .Conditional (.nameExpr "y") (mkParser ")") =
      .ok (.nameExpr "y", ((mkParser ")").lookAhead 0).snd) :=
  c9_trailing_input_ignored.1 0 .Conditional (.nameExpr "y") (mkParser ")")
    (by decide)

/-- C10: the assignment parselet parses the complete right-hand side before
validating the left-hand side, so a failing right-hand side reports its own
error for any left subtree (`a + b = )` reports the `)` prefix failure),
while the invalid-target failure fires when the right side parses
(`a + b = c`). -/
theorem c10_assign_validates_after_rhs :
    (∀ (fuel : Nat) (left : Expression) (tok : Token) (p : Parser)
        (err : ParseError),
        parseExpressionPrecedence bantamGrammar fuel .Everything p = .error err →
        runInfixParselet bantamGrammar (fuel + 1) .assignParselet left tok p =
          .error err) ∧
    parseStringE "a + b = )" = .error (.couldNotParse ")") ∧
    parseStringE "a + b = c" = .error .invalidAssignmentTarget := by
  refine ⟨fun fuel left tok p err h => ?_, rfl, rfl⟩
  have hdef : runInfixParselet bantamGrammar (fuel + 1) .assignParselet left tok p =
      (match parseExpressionPrecedence bantamGrammar fuel .Everything p with
       | .error e => .error e
       | .ok rp =>
         match left with
         | .nameExpr n => .ok (.assignExpr n rp.fst, rp.snd)
         | _ => .error .invalidAssignmentTarget) := rfl
  rw [hdef, h]

/-- C10 witness: the error-propagation clause of
`c10_assign_validates_after_rhs` at a non-name left subtree and a right-hand
side starting with `)`. -/
theorem c10_witness :
    runInfixParselet bantamGrammar 2 .assignParselet
        (.operatorExpr (.nameExpr "a") .Plus (.nameExpr "b")) ⟨.Assign, "="⟩
        (mkParser ")") =
      .error (.couldNotParse ")") :=
  c10_assign_validates_after_rhs.1 1
    (.operatorExpr (.nameExpr "a") .Plus (.nameExpr "b")) ⟨.Assign, "="⟩
    (mkParser ")") (.couldNotParse ")") rfl

/-- C4: grouping is transparent. For every input `s` that the grammar
accepts consuming all of it (the final state has exhausted the text and
buffered only the EOF pad), parsing `"(" ++ s ++ ")"` succeeds with the
structurally identical tree — the group parselet returns the inner
expression without building any node; and `a + (b + c) + d` prints as
`((a + (b + c)) + d)`. -/
theorem c4_grouping_transparent :
    (∀ (s : String) (e : Expression) (p' : Parser),
        parseStringE s = .ok (e, p') →
        p'.read = [eofToken] → p'.tokens.text = [] →
        parseStringE ("(" ++ s ++ ")") = .ok (e, ⟨⟨[]⟩, [eofToken]⟩)) ∧
    parseAndPrint "a + (b + c) + d" = .ok "((a + (b + c)) + d)" := by
  refine ⟨?_, rfl⟩
  intro s e p' h hread htext
  obtain ⟨l⟩ := s
  rw [parseStringE] at h
  have hrel0 : ExtRel (mkParser (String.mk l)) ⟨⟨l ++ [')']⟩, []⟩ := by
    left
    refine ⟨rfl, ?_, ?_⟩
    · intro t ht
      exact absurd ht (by simp [mkParser])
    · exact lexAll_append_rparen l
  obtain ⟨q', hq', hrelf⟩ := (simAll (parseFuel (String.mk l))).1 .Everything
    (mkParser (String.mk l)) ⟨⟨l ++ [')']⟩, []⟩ e p' hrel0 h
  have hq'facts : q'.read = [rparenToken] ∧ lexAll q'.tokens.text = [] := by
    rcases hrelf with ⟨_, hne, _⟩ | ⟨_, hqr, _, hql⟩
    · exact absurd rfl (hne eofToken (by simp [hread]))
    · exact ⟨hqr, hql⟩
  obtain ⟨hq'read, hq'lex⟩ := hq'facts
  have hmono := (fuelMonoAll bantamGrammar (parseFuel (String.mk l))
    (parseFuel (String.mk l) + 14) (by omega)).1 .Everything
    ⟨⟨l ++ [')']⟩, []⟩ (e, q') hq'
  have hdata : ("(" ++ String.mk l ++ ")").data = '(' :: (l ++ [')']) := rfl
  have hfuel : parseFuel ("(" ++ String.mk l ++ ")") =
      parseFuel (String.mk l) + 16 := by
    simp only [parseFuel, String.length_append, String.length_mk]
    rw [show ("(" : String).length = 1 from rfl,
      show (")" : String).length = 1 from rfl]
    omega
  rw [parseStringE, hfuel,
    show mkParser ("(" ++ String.mk l ++ ")") = ⟨⟨'(' :: (l ++ [')'])⟩, []⟩
      from by rw [mkParser, hdata]]
  rw [show parseFuel (String.mk l) + 16 = (parseFuel (String.mk l) + 15) + 1
    from rfl]
  simp only [parseExpressionPrecedence]
  have hcons : (⟨⟨'(' :: (l ++ [')'])⟩, []⟩ : Parser).consume =
      (⟨.LeftParen, "("⟩, ⟨⟨l ++ [')']⟩, []⟩) := by
    rw [consume_nil rfl]
    rfl
  simp only [hcons,
    show bantamGrammar.prefixParselets TokenType.LeftParen =
      some PrefixParselet.groupParselet from rfl]
  rw [show parseFuel (String.mk l) + 15 = (parseFuel (String.mk l) + 14) + 1
    from rfl]
  simp only [runPrefixParselet]
  simp only [hmono]
  have hce : q'.consumeExpected .RightParen =
      .ok (rparenToken, ⟨q'.tokens, []⟩) := by
    simp only [Parser.consumeExpected, lookAhead_zero_cons hq'read]
    rw [if_pos (show rparenToken.tokenType = .RightParen from rfl)]
    rw [consume_cons hq'read]
  simp only [hce]
  have hnext : ((⟨q'.tokens, []⟩ : Parser).tokens).next = (eofToken, ⟨[]⟩) := by
    rw [Lexer.next, lexNext_of_lexAll_nil hq'lex]
  have hla : (⟨q'.tokens, []⟩ : Parser).lookAhead 0 =
      (eofToken, ⟨⟨[]⟩, [eofToken]⟩) := by
    rw [lookAhead_zero_nil rfl, hnext]
  have hgp : (⟨q'.tokens, []⟩ : Parser).getPrecedence bantamGrammar =
      (.Everything, ⟨⟨[]⟩, [eofToken]⟩) := by
    simp only [Parser.getPrecedence, hla]
    rfl
  rw [show parseFuel (String.mk l) + 14 = (parseFuel (String.mk l) + 13) + 1
    from rfl]
  simp only [infixLoop, hgp]
  rw [if_neg (by simp [Precedence.toNat])]

/-- C4 witness: the general clause of `c4_grouping_transparent` applied to
the accepted input `b + c`, whose parenthesization parses to the same tree. -/
theorem c4_witness :
    parseStringE "(b + c)" =
      .ok (.operatorExpr (.nameExpr "b") .Plus (.nameExpr "c"),
        ⟨⟨[]⟩, [eofToken]⟩) :=
  c4_grouping_transparent.1 "b + c"
    (.operatorExpr (.nameExpr "b") .Plus (.nameExpr "c"))
    ⟨⟨[]⟩, [eofToken]⟩ rfl rfl rfl

/-- C7 counterexample: on the false path `match_tok` does not leave the
parser state (in particular the lookahead buffer) unchanged: with an empty
buffer it pulls the next token from the lexer into the buffer. -/
theorem c7_counterexample :
    ((mkParser "a").matchTok .RightParen).fst = false ∧
    ((mkParser "a").matchTok .RightParen).snd ≠ mkParser "a" ∧
    ((mkParser "a").matchTok .RightParen).snd.read ≠ (mkParser "a").read := by
  refine ⟨rfl, ?_, ?_⟩ <;> decide

/-- C7 amended: if the next token of the observable stream has kind `k`,
`match_tok k` consumes it and reports true; otherwise it reports false and
consumes nothing — the observable token stream is unchanged — though the
concrete state may differ because the next token got buffered. -/
theorem c7_match_tok_frame :
    ∀ (p : Parser) (k : TokenType),
      ((streamAt p 0).tokenType = k →
        (p.matchTok k).fst = true ∧
        ∀ i, streamAt ((p.matchTok k).snd) i = streamAt p (i + 1)) ∧
      ((streamAt p 0).tokenType ≠ k →
        (p.matchTok k).fst = false ∧
        ∀ i, streamAt ((p.matchTok k).snd) i = streamAt p i) := by
  intro p k
  have hfst := lookAhead_zero_fst_stream p
  constructor
  · intro h
    have hcond : ((p.lookAhead 0).fst).tokenType = k := by rw [hfst]; exact h
    have hmt : p.matchTok k = (true, (((p.lookAhead 0).snd).consume).snd) := by
      rw [Parser.matchTok, if_pos hcond]
    refine ⟨by rw [hmt], fun i => ?_⟩
    rw [hmt, consume_snd_stream, lookAhead_zero_snd_stream]
  · intro h
    have hcond : ¬ ((p.lookAhead 0).fst).tokenType = k := by rw [hfst]; exact h
    have hmt : p.matchTok k = (false, (p.lookAhead 0).snd) := by
      rw [Parser.matchTok, if_neg hcond]
    refine ⟨by rw [hmt], fun i => ?_⟩
    rw [hmt, lookAhead_zero_snd_stream]

/-- `lexAll` in terms of a single `lexNext` step (the computable unfolding). -/
theorem lexAll_eq_lexNext (cs : List Char) :
    lexAll cs = if (lexNext cs).fst.tokenType = .EOF then []
                else (lexNext cs).fst :: lexAll (lexNext cs).snd := by
  induction cs using lexAll.induct with
  | case1 => simp [lexAll_nil, lexNext, eofToken]
  | case2 c rest tt hp =>
    rw [lexAll, hp, lexNext, hp]
    have htt : tt ≠ .EOF := by
      intro he; subst he
      have := punctuatorFor_punctuator hp
      simp [TokenType.punctuator] at this
    simp [htt]
  | case3 c rest hp ha ih =>
    rw [lexAll, hp, if_pos ha, lexNext, hp, if_pos ha]
    simp
  | case4 c rest hp ha ih =>
    rw [lexAll, hp, if_neg ha, lexNext, hp, if_neg ha]
    exact ih

/-- The observable head token of a fresh parser over `"("`. -/
theorem streamAt_lparen : streamAt (mkParser "(") 0 = ⟨.LeftParen, "("⟩ := by
  have h : lexAll ['('] = [⟨.LeftParen, "("⟩] := by
    rw [lexAll_eq_lexNext, show lexNext ['('] = (⟨.LeftParen, "("⟩, []) from rfl]
    simp [lexAll_nil]
  simp only [streamAt, mkParser, show ("(" : String).data = ['('] from rfl, h]
  rfl

/-- The observable head token of a fresh parser over `"a"`. -/
theorem streamAt_name_a : streamAt (mkParser "a") 0 = ⟨.Name, "a"⟩ := by
  have h : lexAll ['a'] = [⟨.Name, "a"⟩] := by
    rw [lexAll_eq_lexNext, show lexNext ['a'] = (⟨.Name, "a"⟩, []) from rfl]
    simp [lexAll_nil]
  simp only [streamAt, mkParser, show ("a" : String).data = ['a'] from rfl, h]
  rfl

/-- C7 witness: both branches of `c7_match_tok_frame` at concrete states. -/
theorem c7_witness :
    (((mkParser "(").matchTok .LeftParen).fst = true ∧
      streamAt (((mkParser "(").matchTok .LeftParen).snd) 0 =
        streamAt (mkParser "(") 1) ∧
    (((mkParser "a").matchTok .Comma).fst = false ∧
      streamAt (((mkParser "a").matchTok .Comma).snd) 2 =
        streamAt (mkParser "a") 2) :=
  ⟨⟨((c7_match_tok_frame (mkParser "(") .LeftParen).1
      (by rw [streamAt_lparen])).1,
    ((c7_match_tok_frame (mkParser "(") .LeftParen).1
      (by rw [streamAt_lparen])).2 0⟩,
   ⟨((c7_match_tok_frame (mkParser "a") .Comma).2
      (by rw [streamAt_name_a]; decide)).1,
    ((c7_match_tok_frame (mkParser "a") .Comma).2
      (by rw [streamAt_name_a]; decide)).2 2⟩⟩

/-- C8: with the Bantam grammar, the lookahead buffer never holds more than
one token: every primitive parser operation preserves the one-token bound,
and so does the whole precedence-climbing parse; the buffer size therefore
does not grow with input length. -/
theorem c8_bounded_lookahead :
    (∀ p : Parser, p.read.length ≤ 1 →
        ((p.lookAhead 0).snd).read.length ≤ 1) ∧
    (∀ p : Parser, p.read.length ≤ 1 → ((p.consume).snd).read.length ≤ 1) ∧
    (∀ (p : Parser) (k : TokenType), p.read.length ≤ 1 →
        ((p.matchTok k).snd).read.length ≤ 1) ∧
    (∀ (p : Parser) (k : TokenType) (t : Token) (p' : Parser),
        p.read.length ≤ 1 → p.consumeExpected k = .ok (t, p') →
        p'.read.length ≤ 1) ∧
    (∀ p : Parser, p.read.length ≤ 1 →
        ((p.getPrecedence bantamGrammar).snd).read.length ≤ 1) ∧
    (∀ (fuel : Nat) (minPrec : Precedence) (p : Parser) (e : Expression)
        (p' : Parser), p.read.length ≤ 1 →
        parseExpressionPrecedence bantamGrammar fuel minPrec p = .ok (e, p') →
        p'.read.length ≤ 1) :=
  ⟨fun _ => lookAhead_zero_read_bound,
   fun _ => consume_read_bound,
   fun _ k => matchTok_read_bound k,
   fun _ _ _ _ => consumeExpected_read_bound,
   fun _ => getPrecedence_read_bound bantamGrammar,
   fun fuel => (readBoundAll bantamGrammar fuel).1⟩

/-- C8 witness: the parse-level clause of `c8_bounded_lookahead` applied to
a complete parse of `"a"`, whose final state buffers exactly one token. -/
theorem c8_witness : ((⟨⟨[]⟩, [eofToken]⟩ : Parser)).read.length ≤ 1 :=
  c8_bounded_lookahead.2.2.2.2.2 (parseFuel "a") .Everything (mkParser "a")
    (.nameExpr "a") ⟨⟨[]⟩, [eofToken]⟩ (by simp [mkParser]) rfl

end Bantam
